import Mathlib

/-!
Shallow embedding of `src/processing.cpp` (license-plate text-region
extraction).  The OpenCV primitives that the source delegates to
(`Canny`, `findContours`, `threshold`, `erode`, `minAreaRect`) are external
collaborators; where their behaviour decides a claim they are modelled from
their documented contracts, and this is flagged at the definition.

Modelling conventions, stated once:
* `int` coordinates and sizes are modelled as `ℤ` (the embedded pipeline
  never wraps 32 bits on inputs coming from images);
* C++ `double` arithmetic is modelled as exact rational (`ℚ`) arithmetic.
  Every comparison a claim depends on is insensitive to double rounding
  (integer-valued operands, halves, or ratios of small integers), with one
  exception: the truncated luma of `intensity`, which is why the exact
  in-bounds value of `intensity` is never the subject of a theorem below;
* `uchar` pixel values are modelled as `ℕ`;
* a vector access `v[i]` with `i` out of range is undefined behaviour in the
  source; the embedding totalises lookups with an explicit sentinel default
  (`cGet`, `hGet`), and no theorem below depends on an out-of-range lookup;
* the unbounded recursion/iteration of `countChildren` and of the two
  pointer-chasing loops of `textBinary` is embedded with an explicit fuel
  parameter, `none` meaning "the fuel ran out", so that termination of the
  C++ code at an input is `∃ fuel, … ≠ none`.
-/

namespace Processing

/-- `cv::Point`: integer (x, y) coordinate. -/
structure Pt where
  x : ℤ
  y : ℤ
deriving DecidableEq, Repr

/-- `cv::Rect`: axis-aligned box, `x, y` top-left corner. -/
structure RectI where
  x : ℤ
  y : ℤ
  width : ℤ
  height : ℤ
deriving DecidableEq, Repr

/-- `cv::Size`: image width/height. -/
structure SizeI where
  width : ℤ
  height : ℤ
deriving DecidableEq, Repr

/-- A contour is the ordered list of its boundary points. -/
abbrev Contour := List Pt

/-- One `cv::Vec4i` row of a `findContours` hierarchy:
`[0]` next sibling, `[1]` previous sibling, `[2]` first child, `[3]` parent,
negative meaning "absent". -/
structure HNode where
  next : ℤ
  prev : ℤ
  child : ℤ
  parent : ℤ
deriving DecidableEq, Repr

/-- 3-channel image: `pix x y = (B, G, R)` as in OpenCV's `Vec3b` order.
The pixel map is total; `rows`/`cols` delimit the valid region. -/
structure ColorImage where
  rows : ℤ
  cols : ℤ
  pix : ℤ → ℤ → ℕ × ℕ × ℕ

/-- Single-channel image, used by `plateBounds`. -/
structure GrayImage where
  rows : ℤ
  cols : ℤ
  pix : ℤ → ℤ → ℕ

/-- The sentinel hierarchy node used to totalise out-of-range hierarchy
lookups (all links absent). -/
def sentinelNode : HNode := ⟨-1, -1, -1, -1⟩

/-- Totalised `hier[j]`: out-of-range access is UB in the source and is
modelled as the sentinel node. -/
def hGet (hier : List HNode) (j : ℤ) : HNode :=
  if 0 ≤ j then hier.getD j.toNat sentinelNode else sentinelNode

/-- Totalised `contours[j]`: out-of-range access is UB in the source and is
modelled as the empty contour. -/
def cGet (contours : List Contour) (j : ℤ) : Contour :=
  if 0 ≤ j then contours.getD j.toNat [] else []

/-- `cv::boundingRect` of a point list: smallest axis-aligned rectangle
containing all points (`width = maxx - minx + 1`); the empty list yields the
zero rectangle, as OpenCV does. -/
def boundingRect : Contour → RectI
  | [] => ⟨0, 0, 0, 0⟩
  | p :: ps =>
    let xs := (p :: ps).map Pt.x
    let ys := (p :: ps).map Pt.y
    let xmin := xs.foldl min p.x
    let xmax := xs.foldl max p.x
    let ymin := ys.foldl min p.y
    let ymax := ys.foldl max p.y
    ⟨xmin, ymin, xmax - xmin + 1, ymax - ymin + 1⟩

/-- `intensity(img, loc)` (source lines 36-42): out-of-bounds sampling
returns 0; in bounds, the luma `0.3*R + 0.59*G + 0.11*B` is computed in
`double` and truncated to `uchar` on return.  The double evaluation is
modelled here as the exact value `(30*R + 59*G + 11*B) / 100` floored
(`Nat` division); the two can differ by one at integer boundaries, a
floating-point artefact no theorem below relies on. -/
def intensity (img : ColorImage) (loc : Pt) : ℕ :=
  if loc.x < 0 || loc.x ≥ img.cols || loc.y < 0 || loc.y ≥ img.rows then 0
  else
    let c := img.pix loc.x loc.y
    (30 * c.2.2 + 59 * c.2.1 + 11 * c.1) / 100

/-- `hasTextRatio(contour, imgSize)` (source lines 44-54): bounding-box
aspect ratio must lie in [0.1, 10] and box area in [15, image area / 5].
Double arithmetic is exact rational here; `ratio` with `height = 0`
(empty contour) is NaN in the source and `0` here — both reject, see
`hasTextRatio_empty`. -/
def hasTextRatio (contour : Contour) (imgSize : SizeI) : Bool :=
  let box := boundingRect contour
  let ratio : ℚ := (box.width : ℚ) / (box.height : ℚ)
  if ratio < 1/10 || ratio > 10 then false
  else
    let boxArea : ℚ := ((box.width * box.height : ℤ) : ℚ)
    let imgArea : ℚ := ((imgSize.width * imgSize.height : ℤ) : ℚ)
    decide (boxArea ≥ 15) && decide (boxArea ≤ imgArea / 5)

/-- `isConnected(contour)` (source lines 56-59): first and last points
within Chebyshev distance 1.  Indexing `contour[0]` on an empty contour is
UB in the source (it never happens in the pipeline, `findContours` emits
non-empty contours); modelled as `false`. -/
def isConnected (contour : Contour) : Bool :=
  match contour.head?, contour.getLast? with
  | some first, some last =>
    decide (|first.x - last.x| ≤ 1) && decide (|first.y - last.y| ≤ 1)
  | _, _ => false

/-- `keep(contour, imgSize)` (source lines 61-63). -/
def keep (contour : Contour) (imgSize : SizeI) : Bool :=
  hasTextRatio contour imgSize && isConnected contour

/-- `1` if the contour at index `j` is kept, else `0` (the
`if (keep(...)) count++` pattern of `countChildren`). -/
def keepVal (contours : List Contour) (imgSize : SizeI) (j : ℤ) : ℤ :=
  if keep (cGet contours j) imgSize then 1 else 0

/-- The sibling chain walked by the two `for` loops of `countChildren`
(source lines 87-98): starting at `s`, follow `hier[·][0]` (the NEXT link —
both loops use field 0) while the index is strictly positive.  Fuel-bounded;
`none` means the chain did not reach a non-positive index within `fuel`
steps, i.e. the C++ loop would not have terminated yet. -/
def chainF (hier : List HNode) : ℕ → ℤ → Option (List ℤ)
  | 0, s => if s ≤ 0 then some [] else none
  | fuel + 1, s =>
    if s ≤ 0 then some []
    else (chainF hier fuel (hGet hier s).next).map (s :: ·)

/-- `countChildren(contours, hier, index, imgSize)` (source lines 65-100),
fuel-bounded.  Note two facts preserved from the source: a node with
`hier[index][2] < 0` contributes 0, and BOTH sibling loops iterate
`hier[·][0]` (the next link) starting from `hier[child][0]` — the loop
whose counter is named `prev` also follows next links — so the same chain
contribution `s` is added twice and previous siblings are never visited. -/
def countChildrenF (contours : List Contour) (hier : List HNode)
    (imgSize : SizeI) : ℕ → ℤ → Option ℤ
  | 0, _ => none
  | fuel + 1, index =>
    let nd := hGet hier index
    if nd.child < 0 then some 0
    else
      let child := nd.child
      let base : ℤ := keepVal contours imgSize child
      match countChildrenF contours hier imgSize fuel child with
      | none => none
      | some rc =>
        match chainF hier fuel (hGet hier child).next with
        | none => none
        | some chain =>
          match chain.mapM (countChildrenF contours hier imgSize fuel) with
          | none => none
          | some rs =>
            let s : ℤ := (chain.map (keepVal contours imgSize)).sum + rs.sum
            some (base + rc + s + s)

/-- The parent-walk of `textBinary` (source lines 125-127):
`for (parent = …; parent > 0 && keep(contours[parent], sz); parent = hier[parent][3]);`
Walks UP THROUGH kept ancestors and stops at the first non-kept ancestor or
at a non-positive index, returning the stopping value of `parent`.
Fuel-bounded (`none` = loop still running after `fuel` steps). -/
def parentSearchF (contours : List Contour) (hier : List HNode)
    (imgSize : SizeI) : ℕ → ℤ → Option ℤ
  | 0, _ => none
  | fuel + 1, p =>
    if 0 < p ∧ keep (cGet contours p) imgSize then
      parentSearchF contours hier imgSize fuel (hGet hier p).parent
    else some p

/-- The per-index selection test of `textBinary` (source lines 121-141):
index `i` is pushed onto `keptRegions` iff
`keep(contours[i]) && !(parent > 0 && numChildren <= 2) && numChildren <= 2`
where `parent` is the result of the parent-walk and `numChildren` the
result of `countChildren`. -/
def selectIndexF (contours : List Contour) (hier : List HNode)
    (imgSize : SizeI) (fuel : ℕ) (i : ℤ) : Option Bool := do
  let p ← parentSearchF contours hier imgSize fuel (hGet hier i).parent
  let n ← countChildrenF contours hier imgSize fuel i
  pure (keep (cGet contours i) imgSize
        && !(decide (0 < p) && decide (n ≤ 2))
        && decide (n ≤ 2))

/-- The twelve background samples of `textBinary` (source lines 158-177),
in source order: three just-outside points near each corner of `box`. -/
def bgSamples (src : ColorImage) (box : RectI) : List ℕ :=
  [ intensity src ⟨box.x - 1, box.y - 1⟩,
    intensity src ⟨box.x - 1, box.y⟩,
    intensity src ⟨box.x, box.y - 1⟩,
    intensity src ⟨box.x + box.width + 1, box.y - 1⟩,
    intensity src ⟨box.x + box.width + 1, box.y⟩,
    intensity src ⟨box.x + box.width, box.y - 1⟩,
    intensity src ⟨box.x - 1, box.y + box.height + 1⟩,
    intensity src ⟨box.x - 1, box.y + box.height⟩,
    intensity src ⟨box.x, box.y + box.height + 1⟩,
    intensity src ⟨box.x + box.width + 1, box.y + box.height + 1⟩,
    intensity src ⟨box.x + box.width, box.y + box.height + 1⟩,
    intensity src ⟨box.x + box.width + 1, box.y + box.height⟩ ]

/-- Insert a value into an ascending list, keeping it ascending. -/
def insertAsc (a : ℕ) : List ℕ → List ℕ
  | [] => [a]
  | b :: l => if a ≤ b then a :: b :: l else b :: insertAsc a l

/-- Insertion sort (ascending).  `std::nth_element(v, v + k, end)` places
the k-th smallest element of the multiset at position k; reading position k
of any ascending reordering gives exactly that element, so this sort is all
the selection semantics needs. -/
def sortAsc (l : List ℕ) : List ℕ := l.foldr insertAsc []

/-- The background-threshold computation of `textBinary`
(source lines 178-184): `nth_element` at `len/2` reads the `(len/2)`-th
element of the sorted order, then for even `len` a second `nth_element` at
`len/2 + 1` reads the `(len/2 + 1)`-th, and the two are averaged.
`std::nth_element(v, v + k, end)` places the k-th smallest (0-based) at
position k, so both reads are positions of the sorted list; the second call
runs on the permuted vector, which has the same multiset and hence the same
sorted order.  Division is exact here (sum of two naturals halved). -/
def bgThreshOfSamples (bgs : List ℕ) : ℚ :=
  let len := bgs.length
  let sorted := sortAsc bgs
  let b0 : ℚ := (sorted.getD (len / 2) 0 : ℕ)
  if len % 2 = 0 then (b0 + (sorted.getD (len / 2 + 1) 0 : ℕ)) / 2 else b0

/-- The statistical median, following the words of the spec (§4.6 and §8):
for an even count the two middle values — the `(len/2)`-th and
`(len/2 + 1)`-th SMALLEST, i.e. sorted positions `len/2 - 1` and `len/2` —
are averaged.  Written from the spec, to be compared with
`bgThreshOfSamples` (which is written from the source). -/
def trueMedian (bgs : List ℕ) : ℚ :=
  let len := bgs.length
  let sorted := sortAsc bgs
  if len % 2 = 0 then
    (((sorted.getD (len / 2 - 1) 0 : ℕ) : ℚ) + (sorted.getD (len / 2) 0 : ℕ)) / 2
  else (sorted.getD (len / 2) 0 : ℕ)

/-- `cv::copyMakeBorder(src, img, 50, 50, 50, 50, BORDER_CONSTANT)`: a 50 px
black margin on every side. -/
def padImage (src : ColorImage) : ColorImage :=
  ⟨src.rows + 100, src.cols + 100,
   fun x y =>
     if 50 ≤ x ∧ x < 50 + src.cols ∧ 50 ≤ y ∧ y < 50 + src.rows then
       src.pix (x - 50) (y - 50)
     else (0, 0, 0)⟩

/-- The output mask (`cv::Mat filter`), totalised as a map from points to
pixel values. -/
abbrev Mask := Pt → ℕ

/-- A single `filter.at<uchar>(p) = v` store. -/
def maskWrite (m : Mask) (p : Pt) (v : ℕ) : Mask :=
  fun q => if q = p then v else m q

/-- The points written by the fill loop of `textBinary`
(source lines 198-210), in loop order (`x` outer, `y` inner):
`(x, y)` for `x` in `[box.x, box.x + box.width)`, `y` in
`[box.y, box.y + box.height)`, gated by the source's guard
`x >= 0 && x < img.cols && y >= 0 && img.rows` — whose fourth conjunct is
the plain value `img.rows` (truthy iff non-zero), NOT `y < img.rows`. -/
def fillWrites (img : ColorImage) (box : RectI) : List Pt :=
  ((List.range box.width.toNat).map (fun dx : ℕ => box.x + (dx : ℤ))).flatMap
    (fun x =>
      ((List.range box.height.toNat).map (fun dy : ℕ => box.y + (dy : ℤ))).filterMap
        (fun y =>
          if 0 ≤ x ∧ x < img.cols ∧ 0 ≤ y ∧ img.rows ≠ 0 then some ⟨x, y⟩
          else none))

/-- Everything `textBinary` does with one kept region
(source lines 149-211): foreground mean over the contour sampled from the
UNPADDED source, background threshold from the twelve samples, polarity,
then the bounding-box fill classifying each written pixel's luma in the
PADDED image against the foreground estimate.  `fgThresh` on an empty
contour divides by zero — NaN in the source, `0` in `ℚ`; the pipeline never
passes empty contours (`keep` rejects them). -/
def fillRegion (src img : ColorImage) (m : Mask) (region : Contour × RectI) :
    Mask :=
  let contour := region.1
  let box := region.2
  let fgThresh : ℚ :=
    (contour.map (fun p => (intensity src p : ℚ))).sum / (contour.length : ℚ)
  let bgThresh : ℚ := bgThreshOfSamples (bgSamples src box)
  let fg : ℕ := if fgThresh ≥ bgThresh then 255 else 0
  let bg : ℕ := if fgThresh ≥ bgThresh then 0 else 255
  (fillWrites img box).foldl
    (fun acc p =>
      maskWrite acc p (if (intensity img p : ℚ) > fgThresh then bg else fg))
    m

/-- `textBinary(src, dst)` (source lines 102-214), from the contour stage
on.  Edge detection (`Canny` over the three channels of the padded image)
and `findContours` are external primitives; the model therefore takes the
extractor's output — the contour list and hierarchy — as inputs, uses the
padded size for `edges.size()`, and embeds everything the source itself
computes: per-index selection, then the mask, initialised uniformly to 255
and filled region by region in index order.  The drawing of rectangles on
`edges` and the `std::cout` diagnostics do not affect the returned mask and
are not modelled. -/
def textBinaryF (fuel : ℕ) (src : ColorImage) (contours : List Contour)
    (hier : List HNode) : Option Mask := do
  let img := padImage src
  let sz : SizeI := ⟨img.cols, img.rows⟩
  let verdicts ← (List.range contours.length).mapM
    (fun i : ℕ => selectIndexF contours hier sz fuel (i : ℤ))
  let keptRegions :=
    ((List.range contours.length).zip verdicts).filterMap
      (fun iv =>
        if iv.2 then some (cGet contours (iv.1 : ℤ),
                           boundingRect (cGet contours (iv.1 : ℤ)))
        else none)
  pure (keptRegions.foldl (fillRegion src img) (fun _ => 255))

/-! ### plateBounds (source lines 7-34)

`threshold(…, THRESH_BINARY_INV | THRESH_OTSU)`, `getStructuringElement`,
`erode` and `minAreaRect` are all external OpenCV primitives.  They are
modelled from the spec (§4.8: "global binary threshold chosen automatically
…, erodes with a small rectangular structuring element (5×3) …, computes
their minimum-area enclosing rotated rectangle"): the automatically chosen
Otsu threshold becomes a parameter `t` (OpenCV returns a value in
[0, 255)), inverted thresholding maps a pixel to 0 when its value exceeds
`t` and to 255 otherwise, erosion takes the minimum over the 5×3 window
(out-of-image neighbours do not erode, OpenCV's +inf border), and
`minAreaRect` FAULTS on an empty point set — modelled as `none` — while its
value on a non-empty set is irrelevant to every claim and left as the point
list itself. -/

/-- Modelled from the spec: `cv::threshold` with
`THRESH_BINARY_INV`, maxval 255, at threshold `t`. -/
def thresholdInv (t : ℕ) (img : GrayImage) : GrayImage :=
  ⟨img.rows, img.cols, fun x y => if img.pix x y > t then 0 else 255⟩

/-- Modelled from the spec: `cv::erode` with the 5×3 rectangular
structuring element (anchor at centre); neighbours outside the image are
ignored (erode's constant border is +inf). -/
def erode53 (img : GrayImage) : GrayImage :=
  ⟨img.rows, img.cols,
   fun x y =>
     (((List.range 5).flatMap (fun dx : ℕ => (List.range 3).map (fun dy : ℕ =>
         (x + (dx : ℤ) - 2, y + (dy : ℤ) - 1)))).filterMap
       (fun q =>
         if 0 ≤ q.1 ∧ q.1 < img.cols ∧ 0 ≤ q.2 ∧ q.2 < img.rows then
           some (img.pix q.1 q.2)
         else none)).foldl min (img.pix x y)⟩

/-- The point-collection loop of `plateBounds` (source lines 18-23): every
in-image position with a non-zero value, in iterator (row-major) order. -/
def collectPoints (img : GrayImage) : List Pt :=
  ((List.range img.rows.toNat).flatMap (fun y : ℕ =>
    (List.range img.cols.toNat).map (fun x : ℕ => (⟨(x : ℤ), (y : ℤ)⟩ : Pt)))).filter
    (fun p => img.pix p.x p.y ≠ 0)

/-- Modelled from the spec: `cv::minAreaRect` requires a non-empty point
set — on an empty one it raises (asserts), modelled as `none`.  Its
geometric output is irrelevant to every claim here and is returned
uninterpreted. -/
def minAreaRectF (points : List Pt) : Option (List Pt) :=
  if points.isEmpty then none else some points

/-- `plateBounds(src, dst)` (source lines 7-34) with the Otsu threshold `t`
as a parameter: threshold-inverted, eroded, surviving points collected, and
`minAreaRect` applied to them UNCONDITIONALLY — there is no emptiness
guard in the source, so an empty survivor set faults (`none`).  The final
line drawing does not affect whether the call completes and is not
modelled. -/
def plateBoundsF (t : ℕ) (src : GrayImage) : Option GrayImage := do
  let th := thresholdInv t src
  let er := erode53 th
  let points := collectPoints er
  let _ ← minAreaRectF points
  pure er

/-- The constant-valued grayscale image, used as a concrete input. -/
def constGray (rows cols v : ℕ) : GrayImage := ⟨rows, cols, fun _ _ => v⟩

/-! ### Spec-side definitions (written from the spec's words, for
comparison with the source-side definitions above) -/

/-- Written from the spec's words (§4.5 / claim C1): the nearest KEPT
ancestor of a node — walk `parent` links, SKIPPING non-kept ancestors,
stopping at the first kept one (`some (some a)`) or at the root
(`some none`).  Fuel-bounded. -/
def nearestKeptAncF (contours : List Contour) (hier : List HNode)
    (imgSize : SizeI) : ℕ → ℤ → Option (Option ℤ)
  | 0, _ => none
  | fuel + 1, j =>
    if j < 0 then some none
    else if keep (cGet contours j) imgSize then some (some j)
    else nearestKeptAncF contours hier imgSize fuel (hGet hier j).parent

/-- Written from the spec's words (claim C1): keep region `i` iff `i` is
classified keep, its `numChildren` is at most 2, and it does NOT have a
nearest kept ancestor whose own `numChildren` is at most 2. -/
def claimSelectedF (contours : List Contour) (hier : List HNode)
    (imgSize : SizeI) (fuel : ℕ) (i : ℤ) : Option Bool := do
  let anc ← nearestKeptAncF contours hier imgSize fuel (hGet hier i).parent
  let n ← countChildrenF contours hier imgSize fuel i
  let suppressed ←
    match anc with
    | none => pure false
    | some a => do
      let na ← countChildrenF contours hier imgSize fuel a
      pure (decide (na ≤ 2))
  pure (keep (cGet contours i) imgSize && decide (n ≤ 2) && !suppressed)

/-- A sentinel-terminated chain following an arbitrary link `step`,
fuel-bounded: used to state the spec's sibling chains in both directions.
Stops at non-positive indices (the source's sentinel convention). -/
def linkChainF (step : ℤ → ℤ) : ℕ → ℤ → Option (List ℤ)
  | 0, s => if s ≤ 0 then some [] else none
  | fuel + 1, s =>
    if s ≤ 0 then some []
    else (linkChainF step fuel (step s)).map (s :: ·)

/-- Written from the spec's words (§4.4 / claim C2): ALL descendants of `i`
reached through `i`'s first child and that child's full sibling chain,
scanning siblings in both the next AND the previous direction, each visited
node recursively expanded.  Fuel-bounded; may list a node twice, see
`claimKeptDescCountF`. -/
def claimDescF (hier : List HNode) : ℕ → ℤ → Option (List ℤ)
  | 0, _ => none
  | fuel + 1, i =>
    let nd := hGet hier i
    if nd.child < 0 then some []
    else do
      let nextChain ← linkChainF (fun j => (hGet hier j).next) fuel
                        (hGet hier nd.child).next
      let prevChain ← linkChainF (fun j => (hGet hier j).prev) fuel
                        (hGet hier nd.child).prev
      let layer := nd.child :: (nextChain ++ prevChain)
      let subs ← layer.mapM (claimDescF hier fuel)
      pure (layer ++ subs.flatten)

/-- Written from the spec's words (claim C2): the NUMBER of contours
classified keep among all descendants of `i` — a count of distinct kept
nodes, so the visited list is deduplicated. -/
def claimKeptDescCountF (contours : List Contour) (hier : List HNode)
    (imgSize : SizeI) (fuel : ℕ) (i : ℤ) : Option ℕ :=
  (claimDescF hier fuel i).map
    (fun l => (l.dedup.filter (fun j => keep (cGet contours j) imgSize)).length)

/-! ### Concrete example data -/

/-- A kept contour: closed (first = last) with a 5×5 bounding box. -/
def keptContourA : Contour := [⟨0, 0⟩, ⟨4, 4⟩, ⟨0, 0⟩]

/-- A second kept contour: closed with a 4×4 bounding box. -/
def keptContourB : Contour := [⟨1, 1⟩, ⟨4, 4⟩, ⟨1, 1⟩]

/-- A rejected contour: a single point (box area 1 < 15). -/
def rejContour : Contour := [⟨0, 0⟩]

/-- A 1000×1000 image size: image area 10^6, so area bound 15 ≤ a ≤ 200000. -/
def szEx : SizeI := ⟨1000, 1000⟩

/-- Contours for the C1 example: index 1 and 2 kept, index 0 rejected. -/
def contoursC1 : List Contour := [rejContour, keptContourA, keptContourB]

/-- Hierarchy for the C1 example: node 1 is a root with first child 2;
node 2 has no children.  Both are kept and node 1's `numChildren` is 1. -/
def hierC1 : List HNode :=
  [⟨-1, -1, -1, -1⟩, ⟨-1, -1, 2, -1⟩, ⟨-1, -1, -1, 1⟩]

/-- Hierarchy for the C2 example: node 0 is a root whose first child 1 has
next sibling 2; nodes 1 and 2 are kept leaves. -/
def hierC2 : List HNode :=
  [⟨-1, -1, 1, -1⟩, ⟨2, -1, -1, 0⟩, ⟨-1, 1, -1, 0⟩]

/-- Hierarchy for the C10 counterexample: node 1 has first child 2, and
node 2's NEXT link points back up to 1.  Parent links are acyclic (2's
parent is 1, 1 is a root) and every sibling chain reaches the sentinel
(from 2: 2, 1, then `hier[1].next = -1`), yet `countChildren(1)` recurses
forever: 1 → child 2 → sibling chain [1] → 1 → … -/
def hierC10 : List HNode :=
  [⟨-1, -1, -1, -1⟩, ⟨-1, -1, 2, -1⟩, ⟨1, -1, -1, 1⟩]

/-- The aspect ratio exactly as the source computes it:
`double ratio = box.width / box.height`. -/
def boxRatio (c : Contour) : ℚ :=
  ((boundingRect c).width : ℚ) / ((boundingRect c).height : ℚ)

/-- The box area exactly as the source computes it:
`double boxArea = box.width * box.height`. -/
def boxAreaQ (c : Contour) : ℚ :=
  (((boundingRect c).width * (boundingRect c).height : ℤ) : ℚ)

/-- The image area exactly as the source computes it:
`double imgArea = imgSize.width * imgSize.height`. -/
def imgAreaQ (sz : SizeI) : ℚ :=
  ((sz.width * sz.height : ℤ) : ℚ)

/-- The twelve boundary samples named by the spec's median test (§8). -/
def sampleC3 : List ℕ := [10, 10, 10, 10, 10, 10, 200, 200, 200, 200, 200, 200]

/-- A contour with a 1×200 bounding box (ratio 0.005). -/
def contour1x200 : Contour := [⟨0, 0⟩, ⟨0, 199⟩]

/-- A contour with a 5×2 bounding box (area 10). -/
def contourArea10 : Contour := [⟨0, 0⟩, ⟨4, 1⟩]

/-- A contour with a 5×3 bounding box (area exactly 15, ratio 5/3). -/
def contourArea15 : Contour := [⟨0, 0⟩, ⟨4, 2⟩]

/-- A 2-row, 5-column image for the fill-guard counterexample. -/
def imgC5 : ColorImage := ⟨2, 5, fun _ _ => (0, 0, 0)⟩

/-- A box extending two rows past the bottom of `imgC5`. -/
def boxC5 : RectI := ⟨0, 0, 3, 4⟩

/-- A 5×5 image for the fill-guard witness. -/
def imgC5W : ColorImage := ⟨5, 5, fun _ _ => (0, 0, 0)⟩

/-- A box contained in `imgC5W`. -/
def boxC5W : RectI := ⟨0, 0, 2, 2⟩

/-- A 1×1 black source image, used as a degenerate pipeline input. -/
def srcW : ColorImage := ⟨1, 1, fun _ _ => (0, 0, 0)⟩

/-- The mask `textBinary` starts from: uniformly 255. -/
def maskInit : Mask := fun _ => 255

/-- A rank function witnessing well-foundedness of `countChildren`'s
traversal: it must strictly decrease along first-child links (whenever the
child index is non-negative, i.e. the source recurses into it) and along
next-sibling links (whenever the next index is positive, i.e. the source's
chain loops step to it). -/
def RankDecreasing (hier : List HNode) (rank : ℤ → ℕ) : Prop :=
  ∀ j : ℤ,
    (0 ≤ (hGet hier j).child → rank (hGet hier j).child < rank j) ∧
    (0 < (hGet hier j).next → rank (hGet hier j).next < rank j)

/-- Termination of the C++ `countChildren(contours, hier, i, imgSize)`:
some fuel suffices for the fuel-bounded embedding to produce a value. -/
def CountTerminates (contours : List Contour) (hier : List HNode)
    (imgSize : SizeI) (i : ℤ) : Prop :=
  ∃ fuel, (countChildrenF contours hier imgSize fuel i).isSome

/-- The chain following `step` from `s` reaches a non-positive sentinel
(within `fuel` steps) and never revisits a node: "acyclic, ending in a
non-positive sentinel". -/
def chainNodupB (step : ℤ → ℤ) (fuel : ℕ) (s : ℤ) : Bool :=
  match linkChainF step fuel s with
  | some l => decide l.Nodup
  | none => false

/-- Node `i` is not its own ancestor: the parent walk from `i` reaches a
non-positive sentinel without passing through `i` (and without a cycle). -/
def noSelfAncB (hier : List HNode) (fuel : ℕ) (i : ℤ) : Bool :=
  match linkChainF (fun j => (hGet hier j).parent) fuel (hGet hier i).parent with
  | some l => decide ((i : ℤ) ∉ l) && decide l.Nodup
  | none => false

/-- The hypotheses of claim C10, checked over the `n` nodes of a hierarchy:
no contour is its own ancestor, and every sibling chain (next and previous
direction alike) is acyclic and ends in a non-positive sentinel. -/
def forestOKB (hier : List HNode) (n : ℕ) : Bool :=
  (List.range n).all (fun i =>
    noSelfAncB hier n (i : ℤ)
    && chainNodupB (fun j => (hGet hier j).next) (n + 1) (i : ℤ)
    && chainNodupB (fun j => (hGet hier j).prev) (n + 1) (i : ℤ))

/-- A one-node hierarchy (a single root with no links), used to witness the
rank-based termination theorem. -/
def hierW : List HNode := [sentinelNode]

theorem chainF_nonpos (hier : List HNode) (f : ℕ) {s : ℤ} (h : s ≤ 0) :
    chainF hier f s = some [] := by
  cases f <;> simp [chainF, h]

theorem countChildrenF_succ (c : List Contour) (h : List HNode) (sz : SizeI)
    (fuel : ℕ) (i : ℤ) :
    countChildrenF c h sz (fuel + 1) i =
      (if (hGet h i).child < 0 then some 0 else
        (countChildrenF c h sz fuel (hGet h i).child).bind (fun rc =>
          (chainF h fuel (hGet h (hGet h i).child).next).bind (fun chain =>
            (chain.mapM (countChildrenF c h sz fuel)).bind (fun rs =>
              some (keepVal c sz (hGet h i).child + rc +
                    ((chain.map (keepVal c sz)).sum + rs.sum) +
                    ((chain.map (keepVal c sz)).sum + rs.sum)))))) := by
  simp only [countChildrenF, List.mapM]
  cases hcc : countChildrenF c h sz fuel (hGet h i).child with
  | none => simp
  | some rc =>
    cases hch : chainF h fuel (hGet h (hGet h i).child).next with
    | none => simp [hch]
    | some chain =>
      cases hm : List.mapM.loop (countChildrenF c h sz fuel) chain [] with
      | none => simp [hch, hm]
      | some rs => simp [hch, hm]

theorem chainF_isSome_of_rank (h : List HNode) (rank : ℤ → ℕ)
    (hr : RankDecreasing h rank) :
    ∀ (f : ℕ) (s : ℤ), rank s < f → (chainF h f s).isSome := by
  intro f
  induction f with
  | zero => intro s hs; omega
  | succ f ih =>
    intro s hs
    by_cases h0 : s ≤ 0
    · simp [chainF, h0]
    · simp only [chainF, if_neg h0]
      by_cases hn : (hGet h s).next ≤ 0
      · rw [chainF_nonpos h f hn]; rfl
      · have hS := ih (hGet h s).next (by have := (hr s).2 (by omega); omega)
        rcases Option.isSome_iff_exists.mp hS with ⟨l, hl⟩
        simp [hl]

theorem chainF_rank_le (h : List HNode) (rank : ℤ → ℕ)
    (hr : RankDecreasing h rank) :
    ∀ (f : ℕ) (s : ℤ) (l : List ℤ), chainF h f s = some l →
      ∀ j ∈ l, rank j ≤ rank s := by
  intro f
  induction f with
  | zero =>
    intro s l hl j hj
    by_cases h0 : s ≤ 0
    · simp [chainF, h0] at hl; subst hl; simp at hj
    · simp [chainF, h0] at hl
  | succ f ih =>
    intro s l hl j hj
    by_cases h0 : s ≤ 0
    · simp [chainF, h0] at hl; subst hl; simp at hj
    · simp only [chainF, if_neg h0] at hl
      rcases Option.map_eq_some'.mp hl with ⟨l', hl', rfl⟩
      rcases List.mem_cons.mp hj with rfl | hj'
      · exact le_refl _
      · have hj2 := ih _ _ hl' j hj'
        by_cases hn : (hGet h s).next ≤ 0
        · rw [chainF_nonpos h f hn] at hl'
          injection hl' with e
          subst e
          simp at hj'
        · have := (hr s).2 (by omega); omega

theorem mapM_isSome (g : ℤ → Option ℤ) :
    ∀ l : List ℤ, (∀ j ∈ l, (g j).isSome) → (l.mapM g).isSome := by
  intro l
  induction l with
  | nil => intro; rw [List.mapM_nil]; rfl
  | cons a t ih =>
    intro hall
    rcases Option.isSome_iff_exists.mp (hall a (by simp)) with ⟨b, hb⟩
    rcases Option.isSome_iff_exists.mp (ih (fun j hj => hall j (by simp [hj]))) with ⟨bs, hbs⟩
    rw [List.mapM_cons]
    simp [hb, show List.mapM.loop g t [] = some bs from hbs]

theorem countF_isSome_of_rank (c : List Contour) (h : List HNode) (sz : SizeI)
    (rank : ℤ → ℕ) (hr : RankDecreasing h rank) :
    ∀ (f : ℕ) (i : ℤ), rank i < f → (countChildrenF c h sz f i).isSome := by
  intro f
  induction f with
  | zero => intro i hi; omega
  | succ f ih =>
    intro i hi
    rw [countChildrenF_succ]
    by_cases hc : (hGet h i).child < 0
    · simp [hc]
    · simp only [if_neg hc]
      have hrc : rank (hGet h i).child < rank i := (hr i).1 (by omega)
      rcases Option.isSome_iff_exists.mp (ih (hGet h i).child (by omega)) with ⟨rc, hrcv⟩
      rw [hrcv, Option.some_bind]
      have hchS : (chainF h f (hGet h (hGet h i).child).next).isSome := by
        by_cases hn : (hGet h (hGet h i).child).next ≤ 0
        · rw [chainF_nonpos h f hn]; rfl
        · have h1 : rank (hGet h (hGet h i).child).next < rank (hGet h i).child :=
            (hr (hGet h i).child).2 (by omega)
          exact chainF_isSome_of_rank h rank hr f _ (by omega)
      rcases Option.isSome_iff_exists.mp hchS with ⟨chain, hchv⟩
      rw [hchv, Option.some_bind]
      have hall : ∀ j ∈ chain, (countChildrenF c h sz f j).isSome := by
        intro j hj
        have hle : rank j ≤ rank (hGet h (hGet h i).child).next :=
          chainF_rank_le h rank hr f _ chain hchv j hj
        by_cases hn : (hGet h (hGet h i).child).next ≤ 0
        · rw [chainF_nonpos h f hn] at hchv
          injection hchv with e
          subst e
          simp at hj
        · have h1 : rank (hGet h (hGet h i).child).next < rank (hGet h i).child :=
            (hr (hGet h i).child).2 (by omega)
          exact ih j (by omega)
      rcases Option.isSome_iff_exists.mp (mapM_isSome _ chain hall) with ⟨rs, hrs⟩
      rw [hrs, Option.some_bind]
      rfl

theorem hGet_hierW (j : ℤ) : hGet hierW j = sentinelNode := by
  unfold hGet hierW
  split
  · cases hj : j.toNat <;> simp [List.getD]
  · rfl

theorem countC10_none :
    ∀ fuel, countChildrenF contoursC1 hierC10 szEx fuel 1 = none := by
  intro fuel
  induction fuel with
  | zero => rfl
  | succ f ih =>
    cases f with
    | zero => rfl
    | succ g =>
      have hg1 : hGet hierC10 1 = ⟨-1, -1, 2, -1⟩ := by simp [hGet, hierC10]
      have hg2 : hGet hierC10 2 = ⟨1, -1, -1, 1⟩ := by simp [hGet, hierC10]
      have h2 : countChildrenF contoursC1 hierC10 szEx (g + 1) 2 = some 0 := rfl
      have hch : chainF hierC10 (g + 1) 1 = some [1] := by
        simp [chainF, hg1, chainF_nonpos]
      have hmap : List.mapM.loop (countChildrenF contoursC1 hierC10 szEx (g + 1)) [1] []
          = none := by
        simp [List.mapM.loop, ih]
      rw [countChildrenF_succ]
      simp only [hg1, hg2]
      norm_num
      simp only [h2, hch, Option.some_bind, List.mapM, hmap, Option.none_bind]
      intro a ha a2 ha2 a4 ha4
      injection ha2 with ha2
      subst ha2
      rw [hmap] at ha4
      exact absurd ha4 (by simp)

theorem keep_A : keep keptContourA szEx = true := by
  norm_num [keep, hasTextRatio, isConnected, boundingRect, keptContourA, szEx, List.foldl]

theorem keep_B : keep keptContourB szEx = true := by
  norm_num [keep, hasTextRatio, isConnected, boundingRect, keptContourB, szEx, List.foldl]

theorem keep_R : keep rejContour szEx = false := by
  norm_num [keep, hasTextRatio, isConnected, boundingRect, rejContour, szEx, List.foldl]

/-- Out-of-bounds sampling returns the sentinel 0 (the first branch of
`intensity`); stated as a lemma of the development, claim C7 itself is a
floating-point statement and is not settled here. -/
theorem intensity_oob (img : ColorImage) (loc : Pt)
    (h : loc.x < 0 ∨ loc.x ≥ img.cols ∨ loc.y < 0 ∨ loc.y ≥ img.rows) :
    intensity img loc = 0 := by
  rcases h with h | h | h | h <;> simp [intensity, h]

theorem mem_intRange (n base x : ℤ) :
    x ∈ (List.range n.toNat).map (fun d : ℕ => base + (d : ℤ)) ↔
      base ≤ x ∧ x < base + n := by
  simp only [List.mem_map, List.mem_range]
  constructor
  · rintro ⟨d, hd, rfl⟩; omega
  · intro h; exact ⟨(x - base).toNat, by omega, by omega⟩

theorem hasTextRatio_iff (c : Contour) (sz : SizeI) :
    hasTextRatio c sz = true ↔
      (1/10 ≤ boxRatio c ∧ boxRatio c ≤ 10 ∧
       15 ≤ boxAreaQ c ∧ boxAreaQ c ≤ imgAreaQ sz / 5) := by
  unfold hasTextRatio boxRatio boxAreaQ imgAreaQ
  simp [not_lt]
  tauto

theorem foldl_maskWrite_preserves (w : Pt → ℕ) (hw : ∀ p, w p = 0 ∨ w p = 255) :
    ∀ (l : List Pt) (m : Mask), (∀ p, m p = 0 ∨ m p = 255) →
      ∀ p, (l.foldl (fun acc q => maskWrite acc q (w q)) m) p = 0 ∨
           (l.foldl (fun acc q => maskWrite acc q (w q)) m) p = 255 := by
  intro l
  induction l with
  | nil => intro m hm p; simpa using hm p
  | cons a t ih =>
    intro m hm p
    simp only [List.foldl_cons]
    apply ih
    intro q
    unfold maskWrite
    by_cases hq : q = a
    · simp [hq, hw a]
    · simp [hq, hm q]

theorem fillRegion_preserves (src img : ColorImage) (r : Contour × RectI) (m : Mask)
    (hm : ∀ p, m p = 0 ∨ m p = 255) :
    ∀ p, fillRegion src img m r p = 0 ∨ fillRegion src img m r p = 255 := by
  intro p
  unfold fillRegion
  apply foldl_maskWrite_preserves _ _ _ _ hm
  intro q
  by_cases hc : ((intensity img q : ℚ) >
      (r.1.map (fun a => (intensity src a : ℚ))).sum / (r.1.length : ℚ))
  · by_cases hpol : ((r.1.map (fun a => (intensity src a : ℚ))).sum / (r.1.length : ℚ)
        ≥ bgThreshOfSamples (bgSamples src r.2)) <;> simp [hc, hpol]
  · by_cases hpol : ((r.1.map (fun a => (intensity src a : ℚ))).sum / (r.1.length : ℚ)
        ≥ bgThreshOfSamples (bgSamples src r.2)) <;> simp [hc, hpol]

theorem foldl_fillRegion_preserves (src img : ColorImage) :
    ∀ (rs : List (Contour × RectI)) (m : Mask), (∀ p, m p = 0 ∨ m p = 255) →
      ∀ p, (rs.foldl (fillRegion src img) m) p = 0 ∨
           (rs.foldl (fillRegion src img) m) p = 255 := by
  intro rs
  induction rs with
  | nil => intro m hm p; simpa using hm p
  | cons r t ih =>
    intro m hm p
    simp only [List.foldl_cons]
    exact ih _ (fillRegion_preserves src img r m hm) p

theorem foldl_min_zero : ∀ l : List ℕ, l.foldl min 0 = 0 := by
  intro l
  induction l with
  | nil => rfl
  | cons a l ih => simp [List.foldl, Nat.zero_min, ih]

/-! ### Claim theorems -/

/-- C1, counterexample: the claim's selection rule — keep `i` iff `keep(i)`,
`numChildren(i) ≤ 2`, and NOT (`i` has a nearest kept ancestor whose own
`numChildren ≤ 2`) — disagrees with the source.  In `hierC1`, contour 2 is
kept, has `numChildren = 0`, and its parent 1 is a kept ancestor with
`numChildren = 1 ≤ 2`: the claim excludes contour 2, the code keeps it
(its parent-walk runs THROUGH kept ancestors to the root and its
suppression test uses contour 2's own count). -/
theorem selection_policy_cex :
    selectIndexF contoursC1 hierC1 szEx 2 2 = some true ∧
    claimSelectedF contoursC1 hierC1 szEx 2 2 = some false := by
  constructor
  · simp [selectIndexF, parentSearchF, countChildrenF, chainF, keepVal, hGet, cGet,
      contoursC1, hierC1, keep_A, keep_B, List.mapM, List.mapM.loop]
  · simp [claimSelectedF, nearestKeptAncF, countChildrenF, chainF, keepVal, hGet, cGet,
      contoursC1, hierC1, keep_A, keep_B, List.mapM, List.mapM.loop]

/-- C1, amended: contour `i` is kept by the selection policy iff `i` itself
is classified keep, its own `numChildren` is at most 2, and the parent
walk — which follows parent links WHILE the ancestor index is positive AND
that ancestor is kept, stopping at the first non-kept ancestor or at a
non-positive index — stops at a non-positive index.  (The suppression test
`!(parent > 0 && numChildren <= 2)` reads `i`'s own count, which the third
conjunct already bounds, so it reduces to `parent ≤ 0`.) -/
theorem selection_policy_amended (c : List Contour) (h : List HNode)
    (sz : SizeI) (fuel : ℕ) (i p n : ℤ)
    (hp : parentSearchF c h sz fuel (hGet h i).parent = some p)
    (hn : countChildrenF c h sz fuel i = some n) :
    (selectIndexF c h sz fuel i = some true ↔
      (keep (cGet c i) sz = true ∧ n ≤ 2 ∧ p ≤ 0)) := by
  unfold selectIndexF
  rw [hp]
  simp only [Option.bind_eq_bind, Option.some_bind, hn, Option.pure_def,
    Option.some.injEq]
  simp only [Bool.and_eq_true, Bool.not_eq_true', Bool.and_eq_false_iff,
    decide_eq_true_eq, decide_eq_false_iff_not, not_lt, not_le]
  constructor
  · rintro ⟨⟨hk, hpn⟩, hn2⟩
    rcases hpn with hp0 | hn3
    · exact ⟨hk, hn2, hp0⟩
    · omega
  · rintro ⟨hk, hn2, hp0⟩
    exact ⟨⟨hk, Or.inl hp0⟩, hn2⟩

/-- C1, witness: the amended characterisation applied to contour 2 of the
example hierarchy (parent-walk result -1, own count 0). -/
theorem selection_policy_amended_w :
    selectIndexF contoursC1 hierC1 szEx 2 2 = some true ↔
      (keep (cGet contoursC1 2) szEx = true ∧ (0 : ℤ) ≤ 2 ∧ (-1 : ℤ) ≤ 0) :=
  selection_policy_amended contoursC1 hierC1 szEx 2 2 (-1) 0
    (by simp [parentSearchF, hGet, cGet, hierC1, contoursC1, keep_A])
    (by simp [countChildrenF, hGet, hierC1])

/-- C2, counterexample: `countChildren` does not return the number of kept
contours among the descendants reached through the first child and its
sibling chain.  In `hierC2` node 0 has child 1 with next sibling 2, both
kept: the set of such descendants is `{1, 2}` with 2 kept members (the
claim-side count), but the code returns 3 — its two sibling loops BOTH
follow the next link, so kept next-siblings are counted twice. -/
theorem countChildren_cex :
    countChildrenF contoursC1 hierC2 szEx 3 0 = some 3 ∧
    claimKeptDescCountF contoursC1 hierC2 szEx 3 0 = some 2 := by
  constructor
  · simp [countChildrenF, chainF, keepVal, hGet, cGet, hierC2, contoursC1, keep_A,
      keep_B, List.mapM, List.mapM.loop]
  · simp [claimKeptDescCountF, claimDescF, linkChainF, hGet, cGet, hierC2, contoursC1,
      keep_A, keep_B, List.mapM, List.mapM.loop, List.dedup, List.filter]

/-- C2, amended: a node with no first child contributes 0; otherwise
`countChildren(i)` returns `keep(child) + countChildren(child)` plus TWICE
the sum, over the chain obtained by following NEXT links from
`hier[child][0]` while positive, of `keep(j) + countChildren(j)` — the
previous-sibling direction is never traversed (the second loop also follows
next links), so next-chain siblings are double-counted. -/
theorem countChildren_amended :
    (∀ (c : List Contour) (h : List HNode) (sz : SizeI) (fuel : ℕ) (i : ℤ),
       (hGet h i).child < 0 → countChildrenF c h sz (fuel + 1) i = some 0) ∧
    (∀ (c : List Contour) (h : List HNode) (sz : SizeI) (fuel : ℕ) (i rc : ℤ)
       (chain rs : List ℤ),
       0 ≤ (hGet h i).child →
       countChildrenF c h sz fuel (hGet h i).child = some rc →
       chainF h fuel (hGet h (hGet h i).child).next = some chain →
       chain.mapM (countChildrenF c h sz fuel) = some rs →
       countChildrenF c h sz (fuel + 1) i =
         some (keepVal c sz (hGet h i).child + rc +
               2 * ((chain.map (keepVal c sz)).sum + rs.sum))) := by
  constructor
  · intro c h sz fuel i hc
    rw [countChildrenF_succ, if_pos hc]
  · intro c h sz fuel i rc chain rs hc h1 h2 h3
    rw [countChildrenF_succ, if_neg (by omega), h1, Option.some_bind, h2,
      Option.some_bind, h3, Option.some_bind]
    congr 1
    ring

/-- C2, witness: the amended formula applied to node 0 of the example
hierarchy (child 1, next chain [2], all recursive counts 0) gives the
doubly-counted value the code returns. -/
theorem countChildren_amended_w :
    countChildrenF contoursC1 hierC2 szEx (2 + 1) 0 =
      some (keepVal contoursC1 szEx (hGet hierC2 0).child + 0 +
            2 * (([2].map (keepVal contoursC1 szEx)).sum + ([0] : List ℤ).sum)) :=
  countChildren_amended.2 contoursC1 hierC2 szEx 2 0 0 [2] [0]
    (by decide)
    (by simp [countChildrenF, hGet, hierC2])
    (by simp [chainF, hGet, hierC2])
    (by simp [List.mapM, List.mapM.loop, countChildrenF, hGet, hierC2])

/-- C3: on the spec's twelve samples `[10 ×6, 200 ×6]` the source's
background threshold — `nth_element` at positions `len/2` and `len/2 + 1`,
i.e. the 7th and 8th smallest, averaged — yields 200, not the true median
105 (average of the 6th and 7th smallest), contradicting the source's own
`Find median` comment. -/
theorem bgThresh_on_spec_samples :
    bgThreshOfSamples sampleC3 = 200 ∧ trueMedian sampleC3 = 105 ∧
    bgThreshOfSamples sampleC3 ≠ trueMedian sampleC3 := by
  have h1 : bgThreshOfSamples sampleC3 = 200 := by
    norm_num [bgThreshOfSamples, sampleC3, sortAsc, insertAsc, List.getD]
  have h2 : trueMedian sampleC3 = 105 := by
    norm_num [trueMedian, sampleC3, sortAsc, insertAsc, List.getD]
  refine ⟨h1, h2, ?_⟩
  rw [h1, h2]
  norm_num

/-- C4: `plateBounds` reaches `cv::minAreaRect` on an EMPTY point set — and
therefore faults — on a 10×10 all-255 image: whatever threshold `t < 255`
Otsu picks (it picks 0 on a constant image, and never returns more than
254 there), inverted thresholding zeroes every pixel, erosion keeps the
image zero, the survivor collection is empty, and the source applies
`minAreaRect` to it with no emptiness guard. -/
theorem plateBounds_faults_on_empty (t : ℕ) (ht : t < 255) :
    plateBoundsF t (constGray 10 10 255) = none := by
  have hth : ∀ x y : ℤ, (thresholdInv t (constGray 10 10 255)).pix x y = 0 := by
    intro x y; simp [thresholdInv, constGray, ht]
  have her : ∀ x y : ℤ, (erode53 (thresholdInv t (constGray 10 10 255))).pix x y = 0 := by
    intro x y
    simp only [erode53]
    rw [hth]
    exact foldl_min_zero _
  have hcol : collectPoints (erode53 (thresholdInv t (constGray 10 10 255))) = [] := by
    simp [collectPoints, her]
  simp [plateBoundsF, hcol, minAreaRectF]

/-- C4, witness: the fault at the Otsu threshold 0 that a constant image
produces. -/
theorem plateBounds_faults_on_empty_w :
    (0 : ℕ) < 255 ∧ plateBoundsF 0 (constGray 10 10 255) = none :=
  ⟨by decide, plateBounds_faults_on_empty 0 (by decide)⟩

/-- C5, counterexample: the fill loop's guard does NOT bound `y` above —
its fourth conjunct is the constant `img.rows`, not `y < img.rows` — so on
a 2-row image a box of height 4 writes the mask at `(0, 2)`, a row index
equal to the image height. -/
theorem fill_guard_cex :
    (⟨0, 2⟩ : Pt) ∈ fillWrites imgC5 boxC5 ∧ ¬((2 : ℤ) < imgC5.rows) := by
  decide

/-- C5, amended: a mask write at `(x, y)` happens iff `(x, y)` lies in the
bounding box and passes the guard `0 ≤ x < cols ∧ 0 ≤ y ∧ rows ≠ 0` — the
`y`-upper bound is not checked; for a box contained vertically in the
image (as every box derived from a contour traced inside the image is),
every write nevertheless satisfies `y < rows`. -/
theorem fillWrites_amended :
    (∀ (img : ColorImage) (box : RectI) (x y : ℤ),
       (⟨x, y⟩ : Pt) ∈ fillWrites img box ↔
         (box.x ≤ x ∧ x < box.x + box.width ∧ box.y ≤ y ∧ y < box.y + box.height ∧
          0 ≤ x ∧ x < img.cols ∧ 0 ≤ y ∧ img.rows ≠ 0)) ∧
    (∀ (img : ColorImage) (box : RectI) (x y : ℤ),
       box.y + box.height ≤ img.rows → (⟨x, y⟩ : Pt) ∈ fillWrites img box →
       y < img.rows) := by
  have main : ∀ (img : ColorImage) (box : RectI) (x y : ℤ),
      (⟨x, y⟩ : Pt) ∈ fillWrites img box ↔
        (box.x ≤ x ∧ x < box.x + box.width ∧ box.y ≤ y ∧ y < box.y + box.height ∧
         0 ≤ x ∧ x < img.cols ∧ 0 ≤ y ∧ img.rows ≠ 0) := by
    intro img box x y
    simp only [fillWrites, List.mem_flatMap, List.mem_filterMap, mem_intRange,
      Option.ite_none_right_eq_some, Option.some.injEq, Pt.mk.injEq]
    constructor
    · rintro ⟨a, ha, b, hb, hP, rfl, rfl⟩
      exact ⟨ha.1, ha.2, hb.1, hb.2, hP.1, hP.2.1, hP.2.2.1, hP.2.2.2⟩
    · rintro ⟨h1, h2, h3, h4, h5, h6, h7, h8⟩
      exact ⟨x, ⟨h1, h2⟩, y, ⟨h3, h4⟩, ⟨h5, h6, h7, h8⟩, rfl, rfl⟩
  refine ⟨main, ?_⟩
  intro img box x y hcont hmem
  have hh := (main img box x y).mp hmem
  omega

/-- C5, witness: a box contained in a 5×5 image; the write at `(0, 1)`
satisfies the derived `y < rows` bound. -/
theorem fillWrites_amended_w :
    boxC5W.y + boxC5W.height ≤ imgC5W.rows ∧
    (⟨0, 1⟩ : Pt) ∈ fillWrites imgC5W boxC5W ∧ (1 : ℤ) < imgC5W.rows :=
  ⟨by decide, by decide,
   fillWrites_amended.2 imgC5W boxC5W 0 1 (by decide) (by decide)⟩

/-- C6: the shape-plausibility test accepts exactly when the bounding-box
width/height ratio lies in `[0.1, 10]` and the box area lies in
`[15, image area / 5]` (all boundaries inclusive); consequently a 1×200
box is always rejected, a box of area 10 is always rejected, and a box of
area exactly 15 is accepted whenever the remaining conditions hold. -/
theorem hasTextRatio_bounds :
    (∀ (c : Contour) (sz : SizeI),
       hasTextRatio c sz = true ↔
         (1/10 ≤ boxRatio c ∧ boxRatio c ≤ 10 ∧
          15 ≤ boxAreaQ c ∧ boxAreaQ c ≤ imgAreaQ sz / 5)) ∧
    (∀ (c : Contour) (sz : SizeI),
       (boundingRect c).width = 1 → (boundingRect c).height = 200 →
       hasTextRatio c sz = false) ∧
    (∀ (c : Contour) (sz : SizeI), boxAreaQ c = 10 → hasTextRatio c sz = false) ∧
    (∀ (c : Contour) (sz : SizeI),
       boxAreaQ c = 15 → 1/10 ≤ boxRatio c → boxRatio c ≤ 10 → 75 ≤ imgAreaQ sz →
       hasTextRatio c sz = true) := by
  refine ⟨hasTextRatio_iff, ?_, ?_, ?_⟩
  · intro c sz hw hh
    cases hfc : hasTextRatio c sz with
    | false => rfl
    | true =>
      exfalso
      have h1 := ((hasTextRatio_iff c sz).mp hfc).1
      have he : boxRatio c = 1/200 := by
        unfold boxRatio
        rw [hw, hh]
        norm_num
      rw [he] at h1
      norm_num at h1
  · intro c sz ha
    cases hfc : hasTextRatio c sz with
    | false => rfl
    | true =>
      exfalso
      have h3 := ((hasTextRatio_iff c sz).mp hfc).2.2.1
      rw [ha] at h3
      norm_num at h3
  · intro c sz ha hr1 hr2 him
    refine (hasTextRatio_iff c sz).mpr ⟨hr1, hr2, ?_, ?_⟩
    · rw [ha]
    · rw [ha]; linarith

/-- C6, witness: the boundary instances — a 1×200 box rejected, area 10
rejected, area exactly 15 accepted — evaluated on concrete contours in a
1000×1000 image. -/
theorem hasTextRatio_bounds_w :
    hasTextRatio contour1x200 szEx = false ∧
    hasTextRatio contourArea10 szEx = false ∧
    hasTextRatio contourArea15 szEx = true :=
  ⟨hasTextRatio_bounds.2.1 contour1x200 szEx (by decide) (by decide),
   hasTextRatio_bounds.2.2.1 contourArea10 szEx
     (by norm_num [boxAreaQ, boundingRect, contourArea10, List.foldl]),
   hasTextRatio_bounds.2.2.2 contourArea15 szEx
     (by norm_num [boxAreaQ, boundingRect, contourArea15, List.foldl])
     (by norm_num [boxRatio, boundingRect, contourArea15, List.foldl])
     (by norm_num [boxRatio, boundingRect, contourArea15, List.foldl])
     (by norm_num [imgAreaQ, szEx])⟩

/-- C8: every pixel of a mask returned by `textBinary` is 0 or 255 — the
mask starts uniformly at 255 and every region write stores the region's
foreground or background colour, both drawn from {0, 255}. -/
theorem textBinary_mask_binary (fuel : ℕ) (src : ColorImage)
    (contours : List Contour) (hier : List HNode) (m : Mask)
    (h : textBinaryF fuel src contours hier = some m) (p : Pt) :
    m p = 0 ∨ m p = 255 := by
  simp only [textBinaryF, Option.pure_def, Option.bind_eq_bind] at h
  rcases Option.bind_eq_some.mp h with ⟨v, hv, hm⟩
  injection hm with hm
  subst hm
  exact foldl_fillRegion_preserves src (padImage src) _ _ (fun q => Or.inr rfl) p

/-- C8, witness: the pipeline on a 1×1 image with no contours returns the
all-255 mask, whose value at the origin is one of the two colours. -/
theorem textBinary_mask_binary_w :
    textBinaryF 1 srcW [] [] = some maskInit ∧
    (maskInit ⟨0, 0⟩ = 0 ∨ maskInit ⟨0, 0⟩ = 255) :=
  ⟨rfl, textBinary_mask_binary 1 srcW [] [] maskInit rfl ⟨0, 0⟩⟩

/-- C9: the mask pipeline is deterministic — on bit-identical inputs
(source image, contour list, hierarchy) two runs return identical
results. -/
theorem textBinary_deterministic (fuel : ℕ) (s1 s2 : ColorImage)
    (c1 c2 : List Contour) (hi1 hi2 : List HNode)
    (es : s1 = s2) (ec : c1 = c2) (eh : hi1 = hi2) :
    textBinaryF fuel s1 c1 hi1 = textBinaryF fuel s2 c2 hi2 := by
  subst es
  subst ec
  subst eh
  rfl

/-- C9, witness: two runs on the same concrete degenerate input. -/
theorem textBinaryF_deterministic_w :
    textBinaryF 1 srcW [] [] = textBinaryF 1 srcW [] [] :=
  textBinary_deterministic 1 srcW srcW [] [] [] [] rfl rfl rfl

/-- C10, counterexample: the claim's conditions — no contour its own
ancestor (via parent links) and all sibling chains acyclic, ending in a
non-positive sentinel — hold of `hierC10` (checked over its three nodes),
yet `countChildren` does not terminate on node 1: its child 2's NEXT link
points back to 1, a configuration the stated conditions do not exclude,
and the sibling loop re-enters `countChildren(1)` forever. -/
theorem countChildren_nontermination_cex :
    forestOKB hierC10 3 = true ∧ ¬ CountTerminates contoursC1 hierC10 szEx 1 := by
  constructor
  · decide
  · rintro ⟨fuel, hf⟩
    rw [countC10_none fuel] at hf
    simp at hf

/-- C10, amended: `countChildren` terminates on every node of a hierarchy
admitting a rank that strictly decreases along first-child links and along
next-sibling links — as the hierarchies produced by `findContours` do
(siblings are finitely chained and never link back to an ancestor). -/
theorem countChildren_terminates_of_rank (c : List Contour) (h : List HNode)
    (sz : SizeI) (rank : ℤ → ℕ) (i : ℤ) (hr : RankDecreasing h rank) :
    CountTerminates c h sz i :=
  ⟨rank i + 1, countF_isSome_of_rank c h sz rank hr (rank i + 1) i (by omega)⟩

/-- C10, witness: termination on the one-node hierarchy, with the constant
rank. -/
theorem countChildren_terminates_of_rank_w :
    CountTerminates contoursC1 hierW szEx 0 :=
  countChildren_terminates_of_rank contoursC1 hierW szEx (fun _ => 0) 0 (by
    intro j
    rw [hGet_hierW]
    refine ⟨fun hj => ?_, fun hj => ?_⟩ <;> simp [sentinelNode] at hj)
